import Mathlib

/-!
# Verification of the US economic event fetcher core

Shallow embedding of `scripts/us_event_fetcher.py`: the event data model,
the keyword-based impact check, the constructor's timezone normalization,
and the aggregator (concatenate, deduplicate, sort, filter).

Python strings are modelled as lists of code points (`List Nat`);
`str.lower` is modelled for the ASCII range, which covers every keyword in
the configuration and every name the claims exercise.  Python `datetime`
values are modelled as a civil clock reading in microseconds together with
an optional UTC offset (`tzinfo`); a timezone-aware UTC datetime is then
just its instant in microseconds, which is how `event_time_utc` is stored
on aggregated records.
-/

/-- Code points of a Lean string literal, used to transcribe the Python
string constants of the source. -/
def toCodes (s : String) : List Nat :=
  s.data.map Char.toNat

/-- ASCII lower-casing of one code point, modelling `str.lower` on the
ASCII range (the range all configured keywords live in). -/
def lowByte (n : Nat) : Nat :=
  if 65 ≤ n ∧ n ≤ 90 then n + 32 else n

/-- ASCII upper-casing of one code point, modelling `str.upper` on the
ASCII range. -/
def upByte (n : Nat) : Nat :=
  if 97 ≤ n ∧ n ≤ 122 then n - 32 else n

/-- `s.lower()` on a modelled string. -/
def lowerCodes (s : List Nat) : List Nat :=
  s.map lowByte

/-- `needle` is an initial segment of `hay` (helper for substring tests). -/
def beginsWith : List Nat → List Nat → Bool
  | [], _ => true
  | _ :: _, [] => false
  | a :: as, b :: bs => a == b && beginsWith as bs

/-- Python's containment test `needle in hay` for strings: `needle` occurs
contiguously inside `hay`. -/
def containsSub (hay needle : List Nat) : Bool :=
  match hay with
  | [] => needle.isEmpty
  | _ :: t => beginsWith needle hay || containsSub t needle

/-- `HIGH_IMPACT_KEYWORDS` from the configuration section (lines 42-61). -/
def HIGH_IMPACT_KEYWORDS : List (List Nat) :=
  ["FOMC", "Federal Reserve", "Fed", "Interest Rate Decision",
   "CPI", "Consumer Price Index", "Inflation",
   "NFP", "Non-Farm Payroll", "Employment",
   "Unemployment Rate", "Jobs Report",
   "GDP", "Gross Domestic Product",
   "PCE", "Personal Consumption Expenditures", "Core PCE",
   "Retail Sales",
   "ISM Manufacturing", "ISM Services",
   "Jobless Claims", "Initial Jobless Claims",
   "PPI", "Producer Price Index",
   "Durable Goods Orders",
   "Housing Starts", "Building Permits",
   "Consumer Confidence",
   "Existing Home Sales",
   "New Home Sales",
   "Factory Orders",
   "Industrial Production",
   "Capacity Utilization"].map toCodes

/-- `MEDIUM_IMPACT_KEYWORDS` from the configuration section (lines 63-87). -/
def MEDIUM_IMPACT_KEYWORDS : List (List Nat) :=
  ["Personal Income", "Personal Spending",
   "Advance Retail Sales",
   "Core Retail Sales",
   "Wholesale Inventories",
   "Business Inventories",
   "Construction Spending",
   "Chicago PMI",
   "Philly Fed Manufacturing",
   "Empire State Manufacturing",
   "MBA Mortgage Applications",
   "Conference Board Leading Index",
   "Pending Home Sales",
   "Core PCE Price Index",
   "Continuing Jobless Claims",
   "Average Hourly Earnings",
   "Labor Force Participation",
   "U-6 Unemployment",
   "Export Prices", "Import Prices",
   "Trade Balance",
   "Fed Beige Book",
   "FOMC Minutes",
   "Financial Conditions",
   "Bank Lending Standards"].map toCodes

/-- `ForexFactoryFetcher._is_high_medium_impact` (lines 250-256): scan the
concatenation of both keyword lists and report whether some keyword,
lower-cased, occurs inside the lower-cased event name. -/
def is_high_medium_impact (event_name : List Nat) : Bool :=
  (HIGH_IMPACT_KEYWORDS ++ MEDIUM_IMPACT_KEYWORDS).any
    (fun keyword => containsSub (lowerCodes event_name) (lowerCodes keyword))

/-- Some High-list keyword matches the name case-insensitively. -/
def matchesHigh (event_name : List Nat) : Bool :=
  HIGH_IMPACT_KEYWORDS.any
    (fun keyword => containsSub (lowerCodes event_name) (lowerCodes keyword))

/-- Some Medium-list keyword matches the name case-insensitively. -/
def matchesMedium (event_name : List Nat) : Bool :=
  MEDIUM_IMPACT_KEYWORDS.any
    (fun keyword => containsSub (lowerCodes event_name) (lowerCodes keyword))

/-- The impact a `ForexFactoryFetcher.fetch` row ends up with (lines
219-236): rows whose name matches no keyword are skipped (`none`);
otherwise the impact is `High` exactly when the literal substring `High`
(case sensitive) occurs in the row's impact cell, else `Medium`. -/
def forex_row_impact (event_name impact_str : List Nat) : Option String :=
  if is_high_medium_impact event_name then
    some (if containsSub impact_str (toCodes ("High")) then "High" else "Medium")
  else
    none

/-- A Python `datetime`: the civil clock reading in microseconds plus the
`tzinfo` UTC offset in microseconds (`none` = naive). -/
structure PyDatetime where
  civil : Int
  tzOffset : Option Int
deriving DecidableEq

/-- The `event_time_utc` normalization in `EconomicEvent.__init__` (line
107): a naive datetime gets `tzinfo=UTC` attached without shifting the
clock reading (`replace(tzinfo=UTC)`); an aware datetime is converted to
the same instant rendered in UTC (`astimezone(UTC)`). -/
def init_event_time_utc (d : PyDatetime) : PyDatetime :=
  match d.tzOffset with
  | none => { civil := d.civil, tzOffset := some 0 }
  | some off => { civil := d.civil - off, tzOffset := some 0 }

/-- An `EconomicEvent` after construction: `event_time_utc` is a UTC
instant, stored as microseconds. -/
structure EconomicEvent where
  name : List Nat
  event_time_utc : Nat
  impact : String
  forecast : Option String
  previous : Option String
  actual : Option String
  source : String
deriving DecidableEq

/-- The deduplication key of `EventAggregator.fetch_all` (line 491): the
name paired with `event_time_utc.replace(second=0, microsecond=0)`, i.e.
the time with its sub-minute part dropped. -/
def dedupKey (e : EconomicEvent) : List Nat × Nat :=
  (e.name, e.event_time_utc / 60000000 * 60000000)

/-- The dedup loop of `fetch_all` (lines 486-495) with its `seen` set. -/
def dedupAux (seen : List (List Nat × Nat)) : List EconomicEvent → List EconomicEvent
  | [] => []
  | e :: rest =>
    if dedupKey e ∈ seen then dedupAux seen rest
    else e :: dedupAux (dedupKey e :: seen) rest

/-- Deduplication as performed by `fetch_all`: first record of each
(name, minute) class survives. -/
def dedup (l : List EconomicEvent) : List EconomicEvent :=
  dedupAux [] l

/-- The sort key of `fetch_all` line 498: compare events by time. -/
def timeLE (a b : EconomicEvent) : Prop :=
  a.event_time_utc ≤ b.event_time_utc

instance : DecidableRel timeLE :=
  fun a b => Nat.decLe a.event_time_utc b.event_time_utc

instance : IsTotal EconomicEvent timeLE :=
  ⟨fun a b => Nat.le_total a.event_time_utc b.event_time_utc⟩

instance : IsTrans EconomicEvent timeLE :=
  ⟨fun _ _ _ hab hbc => Nat.le_trans hab hbc⟩

/-- `unique_events.sort(key=lambda e: e.event_time_utc)` (line 498):
Python's sort is stable, so it coincides with stable insertion sort on the
time key. -/
def sortEvents (l : List EconomicEvent) : List EconomicEvent :=
  List.insertionSort timeLE l

/-- The fetch loop of `fetch_all` (lines 476-483): each fetcher either
returns a list of events or raises; a raising fetcher is caught and
contributes nothing. -/
def gatherOk : List (Except String (List EconomicEvent)) → List EconomicEvent
  | [] => []
  | r :: rest =>
    match r with
    | Except.ok evs => evs ++ gatherOk rest
    | Except.error _ => gatherOk rest

/-- `EventAggregator.fetch_all` (lines 474-501): concatenate the fetcher
outputs, deduplicate first-seen-wins, then sort by time. -/
def fetch_all (rs : List (Except String (List EconomicEvent))) : List EconomicEvent :=
  sortEvents (dedup (gatherOk rs))

/-- `EventAggregator.filter_high_medium` (lines 503-507):
keep `e` iff `e.impact in ['High', 'Medium']`. -/
def filter_high_medium (events : List EconomicEvent) : List EconomicEvent :=
  events.filter (fun e => e.impact == "High" || e.impact == "Medium")

/-- Modelled from the spec: the pipeline order stated in the overview -
concatenate, deduplicate, filter by impact, then sort chronologically. -/
def specPipeline (rs : List (Except String (List EconomicEvent))) : List EconomicEvent :=
  sortEvents (filter_high_medium (dedup (gatherOk rs)))

/-- First occurrence: the first element of `l` whose dedup key equals
`dedupKey e` exists and is `e` itself. -/
def isFirstOcc (e : EconomicEvent) : List EconomicEvent → Bool
  | [] => false
  | a :: l => if dedupKey a = dedupKey e then a == e else isFirstOcc e l

/-! ## Helper lemmas about stable insertion sort and filtering -/

section SortLemmas

variable {α : Type} (r : α → α → Prop) [DecidableRel r]

theorem orderedInsert_of_forall {b : α} {m : List α} (h : ∀ x ∈ m, r b x) :
    List.orderedInsert r b m = b :: m := by
  cases m with
  | nil => rfl
  | cons c m' =>
    have hbc : r b c := h c (List.mem_cons_self c m')
    simp [List.orderedInsert, hbc]

theorem filter_orderedInsert_pos [IsTrans α r] (p : α → Bool) {b : α}
    (hp : p b = true) :
    ∀ m : List α, m.Pairwise r →
      (List.orderedInsert r b m).filter p = List.orderedInsert r b (m.filter p)
  | [], _ => by simp [hp]
  | c :: m', hm => by
    rcases List.pairwise_cons.mp hm with ⟨hc, hm'⟩
    by_cases hbc : r b c
    · rw [List.orderedInsert_of_le r _ hbc]
      by_cases hpc : p c
      · simp only [List.filter_cons, hp, hpc, if_pos]
        rw [List.orderedInsert_of_le r _ hbc]
      · simp only [List.filter_cons, hp, hpc]
        simp only [if_pos, if_neg, Bool.false_eq_true, not_false_eq_true]
        rw [orderedInsert_of_forall r]
        intro x hx
        have hxm : x ∈ m' := (List.filter_sublist m').subset hx
        exact Trans.trans hbc (hc x hxm)
    · simp only [List.orderedInsert, if_neg hbc]
      by_cases hpc : p c
      · simp only [List.filter_cons, hpc, if_pos]
        rw [filter_orderedInsert_pos p hp m' hm']
        simp only [List.orderedInsert, if_neg hbc]
      · simp only [List.filter_cons, hpc]
        simp only [Bool.false_eq_true, if_neg, not_false_eq_true]
        rw [filter_orderedInsert_pos p hp m' hm']

theorem filter_orderedInsert_neg (p : α → Bool) {b : α}
    (hp : p b = false) :
    ∀ m : List α, (List.orderedInsert r b m).filter p = m.filter p
  | [] => by simp [hp]
  | c :: m' => by
    by_cases hbc : r b c
    · rw [List.orderedInsert_of_le r _ hbc]
      simp [List.filter_cons, hp]
    · simp only [List.orderedInsert, if_neg hbc]
      by_cases hpc : p c
      · simp only [List.filter_cons, hpc, if_pos]
        rw [filter_orderedInsert_neg p hp m']
      · simp only [List.filter_cons, hpc]
        simp only [Bool.false_eq_true, if_neg, not_false_eq_true]
        rw [filter_orderedInsert_neg p hp m']

theorem filter_insertionSort [IsTotal α r] [IsTrans α r] (p : α → Bool) :
    ∀ l : List α, (List.insertionSort r l).filter p = List.insertionSort r (l.filter p)
  | [] => rfl
  | b :: l' => by
    simp only [List.insertionSort]
    by_cases hp : p b
    · rw [filter_orderedInsert_pos r p hp _ (List.sorted_insertionSort r l'),
        filter_insertionSort p l']
      simp [List.filter_cons, hp]
    · have hp' : p b = false := by simpa using hp
      rw [filter_orderedInsert_neg r p hp', filter_insertionSort p l']
      simp [List.filter_cons, hp']

theorem insertionSort_of_ties :
    ∀ m : List α, (∀ a ∈ m, ∀ b ∈ m, r a b) → List.insertionSort r m = m
  | [], _ => rfl
  | b :: m', h => by
    simp only [List.insertionSort]
    rw [insertionSort_of_ties m' (fun a ha c hc =>
      h a (List.mem_cons_of_mem b ha) c (List.mem_cons_of_mem b hc))]
    exact orderedInsert_of_forall r (fun x hx =>
      h b (List.mem_cons_self b m') x (List.mem_cons_of_mem b hx))

end SortLemmas

/-! ## Helper lemmas about the deduplication loop -/

theorem dedupAux_sublist : ∀ (l : List EconomicEvent) (seen : List (List Nat × Nat)),
    (dedupAux seen l).Sublist l
  | [], _ => List.Sublist.refl []
  | e :: rest, seen => by
    simp only [dedupAux]
    by_cases h : dedupKey e ∈ seen
    · simp only [if_pos h]
      exact (dedupAux_sublist rest seen).cons e
    · simp only [if_neg h]
      exact (dedupAux_sublist rest (dedupKey e :: seen)).cons₂ e

theorem mem_dedupAux : ∀ (l : List EconomicEvent) (seen : List (List Nat × Nat))
    (e : EconomicEvent),
    e ∈ dedupAux seen l ↔ dedupKey e ∉ seen ∧ isFirstOcc e l = true
  | [], seen, e => by simp [dedupAux, isFirstOcc]
  | a :: rest, seen, e => by
    simp only [dedupAux, isFirstOcc]
    by_cases hk : dedupKey a = dedupKey e
    · rw [if_pos hk]
      by_cases hs : dedupKey a ∈ seen
      · rw [if_pos hs]
        have hkey : dedupKey e ∈ seen := hk ▸ hs
        constructor
        · intro h
          exact absurd hkey ((mem_dedupAux rest seen e).mp h).1
        · rintro ⟨hes, _⟩
          exact absurd hkey hes
      · rw [if_neg hs]
        constructor
        · intro h
          rcases List.mem_cons.mp h with rfl | h'
          · exact ⟨hk ▸ hs, by simp⟩
          · have h2 := (mem_dedupAux rest (dedupKey a :: seen) e).mp h'
            have : dedupKey e ∈ dedupKey a :: seen := by
              rw [← hk]
              exact List.mem_cons_self _ _
            exact absurd this h2.1
        · rintro ⟨hes, hae⟩
          have hae' : a = e := by simpa using hae
          exact hae' ▸ List.mem_cons_self a _
    · rw [if_neg hk]
      by_cases hs : dedupKey a ∈ seen
      · rw [if_pos hs]
        exact mem_dedupAux rest seen e
      · rw [if_neg hs]
        constructor
        · intro h
          rcases List.mem_cons.mp h with rfl | h'
          · exact absurd rfl hk
          · have h2 := (mem_dedupAux rest (dedupKey a :: seen) e).mp h'
            exact ⟨fun hmem => h2.1 (List.mem_cons_of_mem _ hmem), h2.2⟩
        · rintro ⟨hes, hfo⟩
          refine List.mem_cons.mpr (Or.inr ((mem_dedupAux rest (dedupKey a :: seen) e).mpr
            ⟨?_, hfo⟩))
          intro hmem
          rcases List.mem_cons.mp hmem with h' | h'
          · exact hk h'.symm
          · exact hes h'

theorem key_not_seen_of_mem_dedupAux {l : List EconomicEvent}
    {seen : List (List Nat × Nat)} {e : EconomicEvent}
    (h : e ∈ dedupAux seen l) : dedupKey e ∉ seen :=
  ((mem_dedupAux l seen e).mp h).1

theorem dedupAux_pairwise_key : ∀ (l : List EconomicEvent) (seen : List (List Nat × Nat)),
    (dedupAux seen l).Pairwise (fun a b => dedupKey a ≠ dedupKey b)
  | [], _ => List.Pairwise.nil
  | e :: rest, seen => by
    simp only [dedupAux]
    by_cases h : dedupKey e ∈ seen
    · simp only [if_pos h]
      exact dedupAux_pairwise_key rest seen
    · simp only [if_neg h]
      refine List.pairwise_cons.mpr ⟨?_, dedupAux_pairwise_key rest _⟩
      intro b hb hkey
      exact key_not_seen_of_mem_dedupAux hb (hkey ▸ List.mem_cons_self _ _)

theorem dedupAux_eq_nil : ∀ (l : List EconomicEvent) (seen : List (List Nat × Nat)),
    (∀ e ∈ l, dedupKey e ∈ seen) → dedupAux seen l = []
  | [], _, _ => rfl
  | e :: rest, seen, h => by
    simp only [dedupAux, if_pos (h e (List.mem_cons_self e rest))]
    exact dedupAux_eq_nil rest seen (fun x hx => h x (List.mem_cons_of_mem e hx))

theorem dedupAux_append : ∀ (l m : List EconomicEvent) (seen : List (List Nat × Nat)),
    (∀ e ∈ m, dedupKey e ∈ seen ∨ dedupKey e ∈ l.map dedupKey) →
    dedupAux seen (l ++ m) = dedupAux seen l
  | [], m, seen, h => by
    simp only [List.nil_append, dedupAux]
    exact dedupAux_eq_nil m seen (fun e he => by
      rcases h e he with hs | hl
      · exact hs
      · simp at hl)
  | a :: l', m, seen, h => by
    simp only [List.cons_append, dedupAux]
    by_cases hs : dedupKey a ∈ seen
    · simp only [if_pos hs]
      refine dedupAux_append l' m seen (fun e he => ?_)
      rcases h e he with h1 | h2
      · exact Or.inl h1
      · simp only [List.map_cons, List.mem_cons] at h2
        rcases h2 with h2 | h2
        · exact Or.inl (h2 ▸ hs)
        · exact Or.inr h2
    · simp only [if_neg hs]
      refine congrArg (List.cons a) ?_
      refine dedupAux_append l' m (dedupKey a :: seen) (fun e he => ?_)
      rcases h e he with h1 | h2
      · exact Or.inl (List.mem_cons_of_mem _ h1)
      · simp only [List.map_cons, List.mem_cons] at h2
        rcases h2 with h2 | h2
        · exact Or.inl (h2 ▸ List.mem_cons_self _ _)
        · exact Or.inr h2

theorem dedupAux_eq_self : ∀ (l : List EconomicEvent) (seen : List (List Nat × Nat)),
    l.Pairwise (fun a b => dedupKey a ≠ dedupKey b) →
    (∀ e ∈ l, dedupKey e ∉ seen) →
    dedupAux seen l = l
  | [], _, _, _ => rfl
  | a :: l', seen, hpw, hseen => by
    rcases List.pairwise_cons.mp hpw with ⟨ha, hpw'⟩
    simp only [dedupAux, if_neg (hseen a (List.mem_cons_self a l'))]
    congr 1
    refine dedupAux_eq_self l' (dedupKey a :: seen) hpw' (fun e he => ?_)
    simp only [List.mem_cons, not_or]
    exact ⟨fun h => ha e he h.symm, hseen e (List.mem_cons_of_mem a he)⟩

/-! ## Concrete records used by witnesses and counterexamples -/

/-- A CPI record at 12:30:00 UTC (45000 s into the day, in microseconds). -/
def evCPIa : EconomicEvent :=
  ⟨toCodes ("CPI Release"), 45000000000, "High", none, none, none, "Forex Factory"⟩

/-- A CPI record at 12:30:45 UTC with a different forecast - same dedup
minute as `evCPIa`. -/
def evCPIb : EconomicEvent :=
  ⟨toCodes ("CPI Release"), 45045000000, "High", some ("3.1%"), none, none, "Hardcoded Schedule"⟩

/-- A CPI record at 12:31:00 UTC - the next dedup minute. -/
def evCPIc : EconomicEvent :=
  ⟨toCodes ("CPI Release"), 45060000000, "High", none, none, none, "Forex Factory"⟩

/-- A Medium-impact record at 12:00:00 UTC. -/
def evPMI : EconomicEvent :=
  ⟨toCodes ("Chicago PMI"), 43200000000, "Medium", none, none, none, "Hardcoded Schedule"⟩

/-- A Low-impact record at 13:00:00 UTC. -/
def evLow : EconomicEvent :=
  ⟨toCodes ("Random Local Council Meeting"), 46800000000, "Low", none, none, none, "Unknown"⟩

/-! ## Claims -/

/-- C1: deduplication in `fetch_all` treats two records as the same event
iff their names are equal and their times truncated to the minute are
equal; survivors are kept unchanged in stream order (a sublist of the
input), no two survivors share a key, and a record survives exactly when
it is the first of its key class in the concatenated stream
(first-seen-wins, later duplicates discarded, no field merging). -/
theorem dedup_first_seen_wins (l : List EconomicEvent) :
    (dedup l).Sublist l ∧
    (dedup l).Pairwise (fun a b => dedupKey a ≠ dedupKey b) ∧
    (∀ e : EconomicEvent, e ∈ dedup l ↔ isFirstOcc e l = true) ∧
    (∀ a b : EconomicEvent, dedupKey a = dedupKey b ↔
      (a.name = b.name ∧ a.event_time_utc / 60000000 = b.event_time_utc / 60000000)) := by
  refine ⟨dedupAux_sublist l [], dedupAux_pairwise_key l [], ?_, ?_⟩
  · intro e
    rw [dedup, mem_dedupAux]
    simp
  · intro a b
    unfold dedupKey
    rw [Prod.mk.injEq]
    constructor
    · rintro ⟨h1, h2⟩
      exact ⟨h1, Nat.eq_of_mul_eq_mul_right (by norm_num) h2⟩
    · rintro ⟨h1, h2⟩
      exact ⟨h1, by rw [h2]⟩

/-- Witness for C1: in the stream `[evCPIa, evCPIb]` (same name, seconds
00 and 45 of the same minute) the first record survives deduplication. -/
theorem dedup_first_seen_wins_witness :
    evCPIa ∈ dedup [evCPIa, evCPIb] :=
  ((dedup_first_seen_wins [evCPIa, evCPIb]).2.2.1 evCPIa).mpr (by decide)

/-- Counterexample for C2: the constructor does NOT interpret a naive
datetime as US Eastern time.  Line 107 runs `replace(tzinfo=UTC)`, so
naive civil reading 0 is stored as instant 0 UTC; an Eastern
interpretation (UTC-5 in winter, UTC-4 in summer) would store instant
+5 h (18000000000 us) or +4 h (14400000000 us). -/
theorem init_event_time_not_eastern :
    init_event_time_utc ⟨0, none⟩ = ⟨0, some 0⟩ ∧
    init_event_time_utc ⟨0, none⟩ ≠ ⟨18000000000, some 0⟩ ∧
    init_event_time_utc ⟨0, none⟩ ≠ ⟨14400000000, some 0⟩ := by
  refine ⟨rfl, ?_, ?_⟩ <;> intro h <;> exact absurd (congrArg PyDatetime.civil h) (by decide)

/-- C2 as amended: the constructor interprets a naive datetime as UTC
(attaches the UTC zone without shifting the clock reading), converts an
aware datetime to the same instant in UTC, and always stores a
timezone-aware UTC value. -/
theorem init_event_time_utc_spec (d : PyDatetime) :
    (init_event_time_utc d).tzOffset = some 0 ∧
    (d.tzOffset = none → (init_event_time_utc d).civil = d.civil) ∧
    (∀ off : Int, d.tzOffset = some off → (init_event_time_utc d).civil = d.civil - off) := by
  rcases d with ⟨c, tz⟩
  cases tz with
  | none =>
    refine ⟨rfl, fun _ => rfl, fun off h => ?_⟩
    exact Option.noConfusion h
  | some o =>
    refine ⟨rfl, fun h => Option.noConfusion h, fun off h => ?_⟩
    injection h with h2
    subst h2
    rfl

/-- Witness for C2 (amended): a naive reading 100 is stored unchanged as
UTC; an aware reading 100 at offset +30 is stored as instant 70 UTC. -/
theorem init_event_time_utc_spec_witness :
    (init_event_time_utc ⟨100, none⟩).civil = 100 ∧
    (init_event_time_utc ⟨100, some 30⟩).civil = 100 - 30 ∧
    (init_event_time_utc ⟨100, some 30⟩).tzOffset = some 0 :=
  ⟨(init_event_time_utc_spec ⟨100, none⟩).2.1 rfl,
   (init_event_time_utc_spec ⟨100, some 30⟩).2.2 30 rfl,
   (init_event_time_utc_spec ⟨100, some 30⟩).1⟩

/-- Counterexample for C3: the High/Medium decision is not made from the
keyword lists.  `Trade Balance` matches only the Medium list yet is
classified High when the row's impact cell contains `High`; `CPI` matches
the High list yet is classified Medium when the impact cell does not
contain the literal `High`. -/
theorem forex_impact_not_keyword_tiered :
    matchesHigh (toCodes ("Trade Balance")) = false ∧
    matchesMedium (toCodes ("Trade Balance")) = true ∧
    forex_row_impact (toCodes ("Trade Balance")) (toCodes ("High Impact Expected")) =
      some ("High") ∧
    matchesHigh (toCodes ("CPI")) = true ∧
    forex_row_impact (toCodes ("CPI")) (toCodes ("Medium Impact")) = some ("Medium") := by
  refine ⟨by decide, by decide, by decide, by decide, by decide⟩

/-- C3 as amended: a row is kept iff some keyword from either list is a
case-insensitive substring of the name (no match means the event is
skipped, i.e. treated as Low); among kept rows the impact is High exactly
when the case-sensitive substring `High` occurs in the row's impact cell,
and Medium otherwise - independent of which keyword list matched. -/
theorem forex_row_impact_spec (event_name impact_str : List Nat) :
    (forex_row_impact event_name impact_str = none ↔
      ∀ k ∈ HIGH_IMPACT_KEYWORDS ++ MEDIUM_IMPACT_KEYWORDS,
        containsSub (lowerCodes event_name) (lowerCodes k) = false) ∧
    (forex_row_impact event_name impact_str = some ("High") ↔
      (∃ k ∈ HIGH_IMPACT_KEYWORDS ++ MEDIUM_IMPACT_KEYWORDS,
        containsSub (lowerCodes event_name) (lowerCodes k) = true) ∧
      containsSub impact_str (toCodes ("High")) = true) ∧
    (forex_row_impact event_name impact_str = some ("Medium") ↔
      (∃ k ∈ HIGH_IMPACT_KEYWORDS ++ MEDIUM_IMPACT_KEYWORDS,
        containsSub (lowerCodes event_name) (lowerCodes k) = true) ∧
      containsSub impact_str (toCodes ("High")) = false) := by
  have hkw : is_high_medium_impact event_name = true ↔
      ∃ k ∈ HIGH_IMPACT_KEYWORDS ++ MEDIUM_IMPACT_KEYWORDS,
        containsSub (lowerCodes event_name) (lowerCodes k) = true := by
    unfold is_high_medium_impact
    exact List.any_eq_true
  unfold forex_row_impact
  by_cases hm : is_high_medium_impact event_name = true
  · rw [if_pos hm]
    have hex := hkw.mp hm
    by_cases hh : containsSub impact_str (toCodes ("High")) = true
    · rw [if_pos hh]
      refine ⟨⟨fun h => Option.noConfusion h, fun hall => ?_⟩,
        ⟨fun _ => ⟨hex, hh⟩, fun _ => rfl⟩,
        ⟨fun h => ?_, fun h2 => ?_⟩⟩
      · rcases hex with ⟨k, hkmem, hktrue⟩
        exact Bool.noConfusion ((hall k hkmem).symm.trans hktrue)
      · injection h with h2
        exact absurd h2 (by decide)
      · exact Bool.noConfusion (hh.symm.trans h2.2)
    · have hh' : containsSub impact_str (toCodes ("High")) = false := by simpa using hh
      rw [if_neg hh]
      refine ⟨⟨fun h => Option.noConfusion h, fun hall => ?_⟩,
        ⟨fun h => ?_, fun h2 => ?_⟩,
        ⟨fun _ => ⟨hex, hh'⟩, fun _ => rfl⟩⟩
      · rcases hex with ⟨k, hkmem, hktrue⟩
        exact Bool.noConfusion ((hall k hkmem).symm.trans hktrue)
      · injection h with h2
        exact absurd h2 (by decide)
      · exact Bool.noConfusion (hh'.symm.trans h2.2)
  · have hm' : is_high_medium_impact event_name = false := by simpa using hm
    rw [if_neg (by simp [hm'] : ¬ is_high_medium_impact event_name = true)]
    have hall : ∀ k ∈ HIGH_IMPACT_KEYWORDS ++ MEDIUM_IMPACT_KEYWORDS,
        containsSub (lowerCodes event_name) (lowerCodes k) = false := by
      intro k hk
      by_contra hc
      exact hm (hkw.mpr ⟨k, hk, by simpa using hc⟩)
    refine ⟨⟨fun _ => hall, fun _ => rfl⟩,
      ⟨fun h => Option.noConfusion h, fun h2 => ?_⟩,
      ⟨fun h => Option.noConfusion h, fun h2 => ?_⟩⟩
    · rcases h2.1 with ⟨k, hkmem, hktrue⟩
      exact Bool.noConfusion ((hall k hkmem).symm.trans hktrue)
    · rcases h2.1 with ⟨k, hkmem, hktrue⟩
      exact Bool.noConfusion ((hall k hkmem).symm.trans hktrue)

/-- Witness for C3 (amended): instantiating the amended description at a
kept row. -/
theorem forex_row_impact_spec_witness :
    forex_row_impact (toCodes ("CPI Release")) (toCodes ("High")) = some ("High") :=
  ((forex_row_impact_spec (toCodes ("CPI Release")) (toCodes ("High"))).2.1).mpr
    ⟨⟨toCodes ("CPI"), by decide, by decide⟩, by decide⟩

/-- A case map that preserves ASCII lower-casing classes folds away:
upper-casing a code point then lower-casing it is plain lower-casing. -/
theorem lowByte_upByte (n : Nat) : lowByte (upByte n) = lowByte n := by
  by_cases h : 97 ≤ n ∧ n ≤ 122
  · simp only [upByte, if_pos h, lowByte]
    rw [if_pos (by omega : 65 ≤ n - 32 ∧ n - 32 ≤ 90), if_neg (by omega : ¬(65 ≤ n ∧ n ≤ 90))]
    omega
  · simp only [upByte, if_neg h]

/-- C9: the keyword match of `_is_high_medium_impact` is invariant under
any per-character case transformation of the event name (upper-casing,
lower-casing, or any mixed-case map: anything that preserves the
lower-cased code point). -/
theorem classifier_case_insensitive (f : Nat → Nat) (name : List Nat)
    (hf : ∀ c, lowByte (f c) = lowByte c) :
    is_high_medium_impact (name.map f) = is_high_medium_impact name := by
  have hl : ∀ m : List Nat, lowerCodes (m.map f) = lowerCodes m := by
    intro m
    induction m with
    | nil => rfl
    | cons c cs ih =>
      simp only [lowerCodes, List.map_cons] at *
      rw [hf c, ih]
  unfold is_high_medium_impact
  rw [hl name]

/-- Witness for C9: upper-casing the whole name `CPI Release` does not
change the keyword-match result. -/
theorem classifier_case_insensitive_witness :
    is_high_medium_impact ((toCodes ("CPI Release")).map upByte) =
      is_high_medium_impact (toCodes ("CPI Release")) :=
  classifier_case_insensitive upByte (toCodes ("CPI Release")) lowByte_upByte

/-- Filtering the stable sort twice (by a kept-predicate `p` and by a
tie-class predicate `q` whose holders are mutually tied) recovers the
input order of the selected elements. -/
theorem filter_filter_insertionSort {α : Type} (r : α → α → Prop) [DecidableRel r]
    [IsTotal α r] [IsTrans α r] (p q : α → Bool)
    (hq : ∀ a b, q a = true → q b = true → r a b) (l : List α) :
    ((List.insertionSort r l).filter p).filter q = l.filter (fun a => p a && q a) := by
  have h1 : ∀ a ∈ l.filter (fun a => q a && p a), ∀ b ∈ l.filter (fun a => q a && p a),
      r a b := by
    intro a ha b hb
    have hqa := (List.mem_filter.mp ha).2
    have hqb := (List.mem_filter.mp hb).2
    simp only [Bool.and_eq_true] at hqa hqb
    exact hq a b hqa.1 hqb.1
  rw [List.filter_filter, filter_insertionSort r (fun a => q a && p a) l,
    insertionSort_of_ties r (l.filter (fun a => q a && p a)) h1]
  exact List.filter_congr (fun a _ => Bool.and_comm (q a) (p a))

/-- All fetchers contribute empty (or failed) results: nothing gathers. -/
theorem gatherOk_eq_nil : ∀ rs : List (Except String (List EconomicEvent)),
    (∀ l, Except.ok l ∈ rs → l = []) → gatherOk rs = []
  | [], _ => rfl
  | Except.ok l :: rest, h => by
    have hl : l = [] := h l (List.mem_cons_self _ _)
    subst hl
    show [] ++ gatherOk rest = []
    rw [List.nil_append]
    exact gatherOk_eq_nil rest (fun l hl => h l (List.mem_cons_of_mem _ hl))
  | Except.error _ :: rest, h => by
    show gatherOk rest = []
    exact gatherOk_eq_nil rest (fun l hl => h l (List.mem_cons_of_mem _ hl))

/-- The dedup-then-sort core of `fetch_all` is idempotent over the
concatenation of its own output with itself. -/
theorem dedupSort_idempotent (X : List EconomicEvent) :
    sortEvents (dedup (sortEvents (dedup X) ++ sortEvents (dedup X))) = sortEvents (dedup X) := by
  set A := sortEvents (dedup X) with hA
  have hpw : A.Pairwise (fun a b => dedupKey a ≠ dedupKey b) := by
    have h1 := dedupAux_pairwise_key X []
    have hperm : List.Perm (List.insertionSort timeLE (dedup X)) (dedup X) :=
      List.perm_insertionSort timeLE _
    exact (hperm.pairwise_iff (fun h => Ne.symm h)).mpr h1
  have hd1 : dedup (A ++ A) = dedup A :=
    dedupAux_append A A [] (fun e he => Or.inr (List.mem_map_of_mem dedupKey he))
  have hd2 : dedup A = A := dedupAux_eq_self A [] hpw (fun e _ => List.not_mem_nil _)
  have hsorted : List.Sorted timeLE A := List.sorted_insertionSort timeLE (dedup X)
  calc sortEvents (dedup (A ++ A)) = sortEvents A := by rw [hd1, hd2]
    _ = A := hsorted.insertionSort_eq

/-- C4: the code's composition - deduplicate and sort inside `fetch_all`,
then drop Low-impact records in `filter_high_medium` - is extensionally
the spec's pipeline: concatenate, deduplicate, filter by impact, sort.
Filtering commutes with the stable sort. -/
theorem pipeline_refines_spec (rs : List (Except String (List EconomicEvent))) :
    filter_high_medium (fetch_all rs) = specPipeline rs :=
  filter_insertionSort timeLE (fun e => e.impact == "High" || e.impact == "Medium")
    (dedup (gatherOk rs))

/-- C5: `filter_high_medium` drops exactly the Low-impact records: no Low
record reaches the output, every High or Medium record is retained, and on
tier-valid input the result is precisely the input minus its Low records. -/
theorem filter_drops_exactly_low (l : List EconomicEvent)
    (h : ∀ e ∈ l, e.impact = "High" ∨ e.impact = "Medium" ∨ e.impact = "Low") :
    (∀ e ∈ filter_high_medium l, e.impact ≠ "Low") ∧
    (∀ e ∈ l, e.impact = "Low" → e ∉ filter_high_medium l) ∧
    (∀ e ∈ l, (e.impact = "High" ∨ e.impact = "Medium") → e ∈ filter_high_medium l) ∧
    filter_high_medium l = l.filter (fun e => !(e.impact == "Low")) := by
  refine ⟨?_, ?_, ?_, ?_⟩
  · intro e he hlow
    have hp := (List.mem_filter.mp he).2
    rw [hlow] at hp
    exact absurd hp (by decide)
  · intro e _ hlow hmem
    have hp := (List.mem_filter.mp hmem).2
    rw [hlow] at hp
    exact absurd hp (by decide)
  · intro e he him
    refine List.mem_filter.mpr ⟨he, ?_⟩
    rcases him with h1 | h1 <;> rw [h1] <;> decide
  · refine List.filter_congr ?_
    intro e he
    rcases h e he with h1 | h1 | h1 <;> rw [h1] <;> decide

/-- Witness for C5: on a High/Medium/Low stream, filtering is exactly
removal of the Low record. -/
theorem filter_drops_exactly_low_witness :
    filter_high_medium [evCPIa, evPMI, evLow] =
      [evCPIa, evPMI, evLow].filter (fun e => !(e.impact == "Low")) :=
  (filter_drops_exactly_low [evCPIa, evPMI, evLow] (by decide)).2.2.2

/-- C6: the final output (dedup, sort, impact filter) is sorted
non-decreasing by `event_time_utc`, and for each instant `t` its records
at `t` appear exactly in the relative order they had after deduplication
(the sort is stable; no extra tie-break key). -/
theorem output_sorted_and_stable (rs : List (Except String (List EconomicEvent))) :
    List.Sorted timeLE (filter_high_medium (fetch_all rs)) ∧
    ∀ t : Nat,
      (filter_high_medium (fetch_all rs)).filter (fun e => e.event_time_utc == t) =
        (dedup (gatherOk rs)).filter
          (fun e => (e.impact == "High" || e.impact == "Medium") && e.event_time_utc == t) := by
  constructor
  · have hs : List.Pairwise timeLE (List.insertionSort timeLE (dedup (gatherOk rs))) :=
      List.sorted_insertionSort timeLE (dedup (gatherOk rs))
    exact hs.filter _
  · intro t
    refine filter_filter_insertionSort timeLE _ _ (fun a b ha hb => ?_) (dedup (gatherOk rs))
    have h1 : a.event_time_utc = t := by simpa using ha
    have h2 : b.event_time_utc = t := by simpa using hb
    show a.event_time_utc ≤ b.event_time_utc
    omega

/-- C7: the aggregator is a total function that signals no error: when
every fetcher fails or returns zero records the result is the empty list,
and when filtering removes every record the result is likewise the empty
list - valid degenerate outcomes, not exceptions. -/
theorem aggregator_never_fails (rs : List (Except String (List EconomicEvent)))
    (evs : List EconomicEvent)
    (hempty : ∀ l, Except.ok l ∈ rs → l = [])
    (hlow : ∀ e ∈ evs, e.impact = "Low") :
    fetch_all rs = [] ∧
    filter_high_medium (fetch_all rs) = [] ∧
    filter_high_medium (sortEvents (dedup evs)) = [] := by
  have hg : gatherOk rs = [] := gatherOk_eq_nil rs hempty
  have hfa : fetch_all rs = [] := by
    unfold fetch_all
    rw [hg]
    rfl
  refine ⟨hfa, ?_, ?_⟩
  · rw [hfa]
    rfl
  · have hsub : ∀ e ∈ sortEvents (dedup evs), e ∈ evs := by
      intro e he
      have h1 : e ∈ dedup evs := by simpa [sortEvents] using he
      exact (dedupAux_sublist evs []).subset h1
    refine List.filter_eq_nil_iff.mpr ?_
    intro e he
    have himp := hlow e (hsub e he)
    rw [himp]
    decide

/-- Witness for C7: one failing fetcher plus one empty fetcher yield the
empty list, and a stream holding only a Low-impact record filters to the
empty list. -/
theorem aggregator_never_fails_witness :
    fetch_all [Except.error ("boom"), Except.ok []] = [] ∧
    filter_high_medium (fetch_all [Except.error ("boom"), Except.ok []]) = [] ∧
    filter_high_medium (sortEvents (dedup [evLow])) = [] :=
  aggregator_never_fails [Except.error ("boom"), Except.ok []] [evLow]
    (by
      intro l hl
      rcases List.mem_cons.mp hl with h | h
      · exact Except.noConfusion h
      · rcases List.mem_cons.mp h with h2 | h2
        · exact Except.ok.inj h2
        · exact absurd h2 (List.not_mem_nil _))
    (by decide)

/-- C8: aggregation is idempotent - re-running `fetch_all` over its own
output concatenated with itself returns that output unchanged. -/
theorem fetch_all_idempotent (rs : List (Except String (List EconomicEvent))) :
    fetch_all [Except.ok (fetch_all rs ++ fetch_all rs)] = fetch_all rs := by
  have hg : gatherOk [Except.ok (fetch_all rs ++ fetch_all rs)] =
      fetch_all rs ++ fetch_all rs := by
    show (fetch_all rs ++ fetch_all rs) ++ ([] : List EconomicEvent) =
      fetch_all rs ++ fetch_all rs
    exact List.append_nil _
  show sortEvents (dedup (gatherOk [Except.ok (fetch_all rs ++ fetch_all rs)])) = fetch_all rs
  rw [hg]
  exact dedupSort_idempotent (gatherOk rs)

/-- C10: for every input list, `filter_high_medium` returns a subsequence
of its input (kept records are the identical records, in their original
relative order); consequently a time-sorted input stays time-sorted. -/
theorem filter_preserves_order (l : List EconomicEvent) :
    (filter_high_medium l).Sublist l ∧
    (List.Sorted timeLE l → List.Sorted timeLE (filter_high_medium l)) := by
  refine ⟨List.filter_sublist l, fun h => ?_⟩
  have h' : l.Pairwise timeLE := h
  exact h'.filter _

/-- Witness for C10: filtering a concrete stream yields a subsequence, and
on a sorted stream the inner implication yields a sorted result. -/
theorem filter_preserves_order_witness :
    (filter_high_medium [evPMI, evCPIa, evLow]).Sublist [evPMI, evCPIa, evLow] ∧
    List.Sorted timeLE (filter_high_medium [evPMI, evCPIa, evLow]) :=
  ⟨(filter_preserves_order [evPMI, evCPIa, evLow]).1,
   (filter_preserves_order [evPMI, evCPIa, evLow]).2 (by decide)⟩
